import Mathlib

/-!
Verification of the pebble storage engine (batch wire format, WAL replay,
compaction picking and execution, the compaction merge iterator, the raw
block iterator and obsolete-file garbage collection) against its
natural-language specification.

Byte strings are modelled as `List Nat` (each element a byte value).
The definitions are shallow embeddings of the Go source: pure functions
become Lean functions, fallible code returns `Option`/`Except`, and the
few pieces of state that matter (batch buffers, iterator positions) are
passed explicitly.
-/

namespace Pebble

/-- Lexicographic byte-string comparison, the engine's default comparator
(Go `bytes.Compare`). -/
def memcmp : List Nat → List Nat → Ordering
  | [], [] => .eq
  | [], _ :: _ => .lt
  | _ :: _, [] => .gt
  | a :: as, b :: bs =>
    if a < b then .lt else if b < a then .gt else memcmp as bs

/-! ### Varint encoding (Go `encoding/binary` Uvarint / PutUvarint) -/

/-- One step of Go `binary.Uvarint`: `i` is the byte index, `x` the
accumulated value, `s` the current shift.  Returns `(value, bytesRead)`;
`none` models the `n ≤ 0` outcomes (truncated input or 64-bit overflow). -/
def uvarintAux : List Nat → Nat → Nat → Nat → Option (Nat × Nat)
  | [], _, _, _ => none
  | b :: rest, i, x, s =>
    if i = 10 then none
    else if b < 128 then
      if i = 9 ∧ b > 1 then none
      else some (x + b * 2 ^ s, i + 1)
    else uvarintAux rest (i + 1) (x + (b - 128) * 2 ^ s) (s + 7)

/-- Go `binary.Uvarint` over a byte list. -/
def uvarint (data : List Nat) : Option (Nat × Nat) :=
  uvarintAux data 0 0 0

/-- Go `binary.PutUvarint` (as the list of bytes it emits).  The fuel of 10
covers every value a Go `uint64` can hold. -/
def putUvarintAux : Nat → Nat → List Nat
  | 0, _ => []
  | fuel + 1, v => if v < 128 then [v] else (v % 128 + 128) :: putUvarintAux fuel (v / 128)

def putUvarint (v : Nat) : List Nat :=
  putUvarintAux 10 v

/-! ### Internal key kinds (package `db`) -/

def kindDelete : Nat := 0
def kindSet : Nat := 1
def kindMerge : Nat := 2
def kindRangeDelete : Nat := 15
/-- `db.InternalKeyKindMax`. -/
def kindMax : Nat := 15

/-! ### Batch wire format (`batch.go`)

A batch's `data` is `seqNumData (8 bytes) ++ countData (4 bytes) ++
entryData`; we keep the three fields of the layout separate so the
byte-wise count increment and the entry reader stay readable.  A batch
whose header has not yet been lazily initialized has all three fields
empty (Go: `len(b.data) == 0`). -/

structure Batch where
  seqNumData : List Nat
  countData : List Nat
  entryData : List Nat
deriving Repr, DecidableEq

/-- The full wire representation (`Batch.Repr`). -/
def Batch.data (b : Batch) : List Nat :=
  b.seqNumData ++ b.countData ++ b.entryData

/-- The batch before any mutation (Go: `len(b.data) == 0`). -/
def Batch.empty : Batch := ⟨[], [], []⟩

/-- `Batch.init`: the lazily-created 12-byte zero header. -/
def Batch.initHeader : Batch := ⟨List.replicate 8 0, List.replicate 4 0, []⟩

def Batch.prep (b : Batch) : Batch :=
  if b.seqNumData.isEmpty then Batch.initHeader else b

/-- Little-endian value of a byte list (used for the 4-byte count). -/
def leValue : List Nat → Nat
  | [] => 0
  | b :: rest => b + 256 * leValue rest

/-- `Batch.count`. -/
def Batch.count (b : Batch) : Nat := leValue b.countData

/-- Byte-wise increment from `Batch.increment`: bump the first byte; on
wrap-around carry into the next byte; if every byte wraps the count was
`\xff\xff\xff\xff` and the batch stays invalid (`none`). -/
def incBytes : List Nat → Option (List Nat)
  | [] => none
  | b :: rest =>
    if (b + 1) % 256 ≠ 0 then some (((b + 1) % 256) :: rest)
    else (incBytes rest).map (fun r => 0 :: r)

def Batch.increment (b : Batch) : Option Batch :=
  (incBytes b.countData).map (fun cd => { b with countData := cd })

/-- `appendStr`: varint length followed by the bytes. -/
def appendStr (s : List Nat) : List Nat :=
  putUvarint s.length ++ s

inductive Err where
  | invalidBatch
  | notIndexed
  | notFound
  | corrupted
deriving Repr, DecidableEq

/-- `Batch.Set`. -/
def Batch.set (b : Batch) (key value : List Nat) : Except Err Batch :=
  let b := b.prep
  match b.increment with
  | none => .error .invalidBatch
  | some b =>
    .ok { b with entryData := b.entryData ++ kindSet :: (appendStr key ++ appendStr value) }

/-- `Batch.Merge`. -/
def Batch.merge (b : Batch) (key value : List Nat) : Except Err Batch :=
  let b := b.prep
  match b.increment with
  | none => .error .invalidBatch
  | some b =>
    .ok { b with entryData := b.entryData ++ kindMerge :: (appendStr key ++ appendStr value) }

/-- `Batch.Delete` (no value). -/
def Batch.delete (b : Batch) (key : List Nat) : Except Err Batch :=
  let b := b.prep
  match b.increment with
  | none => .error .invalidBatch
  | some b =>
    .ok { b with entryData := b.entryData ++ kindDelete :: appendStr key }

/-- `Batch.DeleteRange` (start and end keys both varint-strings). -/
def Batch.deleteRange (b : Batch) (start stop : List Nat) : Except Err Batch :=
  let b := b.prep
  match b.increment with
  | none => .error .invalidBatch
  | some b =>
    .ok { b with entryData := b.entryData ++ kindRangeDelete :: (appendStr start ++ appendStr stop) }

/-- `batchDecodeStr` (also the body of `batchReader.nextStr`): read a
varint length, fail on a bad varint or if the length exceeds the
remaining bytes, otherwise return the string and the remainder. -/
def batchDecodeStr (data : List Nat) : Option (List Nat × List Nat) :=
  match uvarint data with
  | none => none
  | some (v, n) =>
    let rest := data.drop n
    if v > rest.length then none else some (rest.take v, rest.drop v)

/-- `batchReader.next`: decode one batch entry.  NOTE (faithful to the
source): the value is read only for kinds SET and RANGE_DELETE — the
switch omits MERGE, so a merge entry's value bytes are left unconsumed. -/
def batchReaderNext (r : List Nat) :
    Option (Nat × List Nat × Option (List Nat) × List Nat) :=
  match r with
  | [] => none
  | kind :: p =>
    if kind > kindMax then none
    else
      match batchDecodeStr p with
      | none => none
      | some (ukey, p1) =>
        if kind = kindSet ∨ kind = kindRangeDelete then
          match batchDecodeStr p1 with
          | none => none
          | some (value, p2) => some (kind, ukey, some value, p2)
        else some (kind, ukey, none, p1)

/-- Iterate `batchReader.next` until it reports end-of-batch or a corrupt
entry (the loops in `Batch.refreshMemTableSize` and `DB.replayWAL` stop in
both cases).  The fuel is the byte count; `next` always consumes at least
the kind byte. -/
def batchReadAll : Nat → List Nat → List (Nat × List Nat × Option (List Nat))
  | 0, _ => []
  | fuel + 1, r =>
    match batchReaderNext r with
    | none => []
    | some (kind, ukey, value, rest) => (kind, ukey, value) :: batchReadAll fuel rest

def Batch.readAll (b : Batch) : List (Nat × List Nat × Option (List Nat)) :=
  batchReadAll (b.entryData.length + 1) b.entryData

/-- The body of `Batch.decode` over the suffix `data[offset:]`.  Unlike
`batchReader.next`, the value is read for SET, MERGE and RANGE_DELETE; it
stays `none` (Go `nil`) for DELETE. -/
def decodeEntry : List Nat → Option (Nat × List Nat × Option (List Nat))
  | [] => none
  | kind :: p =>
    if kind > kindMax then none
    else
      match batchDecodeStr p with
      | none => none
      | some (ukey, p1) =>
        if kind = kindSet ∨ kind = kindMerge ∨ kind = kindRangeDelete then
          match batchDecodeStr p1 with
          | none => none
          | some (value, _) => some (kind, ukey, some value)
        else some (kind, ukey, none)

/-- `Batch.decode`: decode the entry at `offset` of the batch's full wire
`data`. -/
def batchDecodeAt (data : List Nat) (offset : Nat) : Option (Nat × List Nat × Option (List Nat)) :=
  decodeEntry (data.drop offset)

/-- The body of `batchStorage.Get` over the suffix `data[offset:]`: skip
the kind byte and decode the user key. -/
def storageUkeyAux : List Nat → Option (List Nat)
  | [] => none
  | _ :: p => (batchDecodeStr p).map (fun x => x.1)

/-- The user key of the entry at `offset` (`batchStorage.Get`); `none`
models the panic on a corrupted entry. -/
def storageUkey (data : List Nat) (offset : Nat) : Option (List Nat) :=
  storageUkeyAux (data.drop offset)

/-- The predicate dropped over by the index seek: entries whose user key is
strictly below the search key.  Modelled from the spec: the batchskl
skiplist (external to this repository) keeps the entry offsets sorted by
user key ascending with equal user keys in reverse insertion order
(newest first); its `SeekGE` lands on the first entry whose user key is
`≥` the search key, because `batchStorage.Compare` treats an equal search
key as smaller. -/
def seekPred (data key : List Nat) (off : Nat) : Bool :=
  match storageUkey data off with
  | some ek => memcmp ek key = .lt
  | none => false

/-- The loop body of `Batch.Get` on the entries at and after the seek
position: an exhausted iterator is `NotFound`; otherwise decode the first
entry, report corruption, and return its value unless the search key is
still greater than the entry key (the loop's `break`, also `NotFound`). -/
def getAtSeek (data key : List Nat) : List Nat → Except Err (Option (List Nat))
  | [] => .error .notFound
  | off :: _ =>
    match batchDecodeAt data off with
    | none => .error .corrupted
    | some (_, ekey, value) =>
      if memcmp key ekey = .gt then .error .notFound else .ok value

/-- `Batch.Get` over the batch's wire `data` and its (optional) index,
given as the offset list in skiplist order. -/
def batchGet (data : List Nat) (index : Option (List Nat)) (key : List Nat) :
    Except Err (Option (List Nat)) :=
  match index with
  | none => .error .notIndexed
  | some idx => getAtSeek data key (idx.dropWhile (seekPred data key))

/-! ### WAL replay (`DB.replayWAL`)

The inner loop of `replayWAL` runs `mem.prepare(&b)` for each decoded
batch and dispatches on the result: `arenaskl.ErrArenaFull` hits a
`panic(err)` (the flush is a `TODO` in the source), any other error
aborts the replay, success falls through to `mem.apply`. -/

inductive PrepareResult where
  | ok
  | arenaFull
  | otherErr
deriving Repr, DecidableEq

inductive ReplayStep where
  | applied
  | panicked
  | aborted
deriving Repr, DecidableEq

/-- The dispatch on `mem.prepare`'s result inside `DB.replayWAL`'s record
loop. -/
def replayPrepareStep : PrepareResult → ReplayStep
  | .ok => .applied
  | .arenaFull => .panicked
  | .otherErr => .aborted

/-! ### Compaction iterator (`compaction_iter.go`)

The underlying merging iterator is modelled as the list of its remaining
entries, sorted by internal key (user key ascending, then sequence number
descending).  `NextUserKey` on it skips the leading entries that share the
current user key. -/

structure IEntry where
  ukey : List Nat
  seq : Nat
  kind : Nat
  val : List Nat
deriving Repr, DecidableEq

/-- The merge operator: `merge(key, accumulated, operand)`. -/
abbrev MergeFn := List Nat → List Nat → List Nat → List Nat

/-- `compactionIterPos`: whether the underlying iterator still sits on the
current entry (`cur`, so the next step calls `NextUserKey`) or has already
advanced past the current user key (`next`). -/
inductive CPos where
  | cur
  | next
deriving Repr, DecidableEq

/-- `InternalIterator.NextUserKey` on a sorted entry list: drop the leading
entries whose user key equals `k`. -/
def skipUserKey (k : List Nat) : List IEntry → List IEntry
  | [] => []
  | e :: rest => if memcmp e.ukey k = .eq then skipUserKey k rest else e :: rest

/-- `compactionIter.mergeNext`: fold older entries of the same user key
into the accumulated value `acc`.  Returns the emitted kind, the value,
the remaining entries (the entry the iterator sits on is at the head) and
the position flag. -/
def mergeNext (m : MergeFn) (k acc : List Nat) :
    List IEntry → Except String (Nat × List Nat × List IEntry × CPos)
  | [] => .ok (kindMerge, acc, [], .next)
  | e :: rest =>
    if memcmp k e.ukey ≠ .eq then .ok (kindMerge, acc, e :: rest, .next)
    else if e.kind = kindDelete then .ok (kindMerge, acc, e :: rest, .cur)
    else if e.kind = kindSet then .ok (kindSet, m k acc e.val, e :: rest, .cur)
    else if e.kind = kindMerge then mergeNext m k (m k acc e.val) rest
    else .error "invalid internal key kind"

/-- `compactionIter.findNextEntry`: `none` when the iterator is exhausted,
otherwise the emitted `(kind, user key, value)` plus the iterator
remainder and position. -/
def findNextEntry (m : MergeFn) :
    List IEntry → Except String (Option (Nat × List Nat × List Nat × List IEntry × CPos))
  | [] => .ok none
  | e :: rest =>
    if e.kind = kindDelete ∨ e.kind = kindSet then
      .ok (some (e.kind, e.ukey, e.val, e :: rest, .cur))
    else if e.kind = kindMerge then
      (mergeNext m e.ukey e.val rest).map
        (fun r => some (r.1, e.ukey, r.2.1, r.2.2.1, r.2.2.2))
    else .error "invalid internal key kind"

/-- One emission of the compaction iterator followed by the advance that
`compactionIter.Next` performs: with `pos = cur` the underlying iterator
still sits on the current user key and `NextUserKey` skips the rest of its
entries; with `pos = next` it has already moved on. -/
def emitStep (m : MergeFn) (l : List IEntry) :
    Except String (Option ((Nat × List Nat × List Nat) × List IEntry)) :=
  (findNextEntry m l).map (fun r =>
    r.map (fun x =>
      match x with
      | (k, uk, v, l1, pos) =>
        ((k, uk, v), match pos with
                     | .cur => skipUserKey uk l1
                     | .next => l1)))

/-! ### Compaction picking and execution (`compaction.go`) -/

structure FileMeta where
  fileNum : Nat
  size : Nat
  smallest : List Nat
  largest : List Nat
deriving Repr, DecidableEq

/-- A Version's file lists; entry `i` of `files` is level `i`, so the list
length is `numLevels`. -/
structure Version where
  files : List (List FileMeta)
deriving Repr, DecidableEq

structure Compaction where
  version : Version
  level : Nat
  inputs0 : List FileMeta
  inputs1 : List FileMeta
  inputs2 : List FileMeta
deriving Repr, DecidableEq

/-- The inner loop of `compaction.isBaseLevelForUkey` for one level: if
`ukey ≤ f.largest` the answer for this level is `ukey ≥ f.smallest`
(found, or break early — for levels above 0 the files are in increasing
key order); otherwise continue with the next file. -/
def levelContainsBreak (ukey : List Nat) : List FileMeta → Bool
  | [] => false
  | f :: rest =>
    if memcmp ukey f.largest ≠ .gt then memcmp ukey f.smallest ≠ .lt
    else levelContainsBreak ukey rest

/-- `compaction.isBaseLevelForUkey`: no level `≥ c.level + 2` contains the
user key. -/
def isBaseLevelForUkey (c : Compaction) (ukey : List Nat) : Bool :=
  (c.version.files.drop (c.level + 2)).all (fun lvl => !(levelContainsBreak ukey lvl))

/-- The entry filter in `DB.compactDiskTables`'s write loop: an entry is
skipped exactly when its kind is DELETE and the output level is the base
level for its user key; every other entry is added to the output table. -/
def compactOutput (c : Compaction) (ents : List IEntry) : List IEntry :=
  ents.filter (fun e => !(e.kind == kindDelete && isBaseLevelForUkey c e.ukey))

/-- Per-level options; only the target file size matters here. -/
structure Options where
  targetFileSizes : List Nat
deriving Repr, DecidableEq

def targetFileSize (opts : Options) (level : Nat) : Nat :=
  opts.targetFileSizes.getD level 0

/-- `maxGrandparentOverlapBytes`. -/
def maxGrandparentOverlapBytes (opts : Options) (level : Nat) : Nat :=
  10 * targetFileSize opts level

/-- `expandedCompactionByteSizeLimit`. -/
def expandedCompactionByteSizeLimit (opts : Options) (level : Nat) : Nat :=
  25 * targetFileSize opts level

/-- Modelled from the spec: `totalSize` (defined outside the given source
files) is the total size in bytes of a list of tables. -/
def totalSize (fs : List FileMeta) : Nat :=
  (fs.map FileMeta.size).sum

structure VersionEdit where
  deletedFiles : List (Nat × Nat)
  newFiles : List (Nat × FileMeta)
deriving Repr, DecidableEq

/-- What `DB.compact1` does with a picked compaction: either the trivial
move (apply the returned VersionEdit and return without writing any
table) or fall through to `compactDiskTables`. -/
inductive Compact1Action where
  | trivialMove (ve : VersionEdit)
  | writeTables
deriving Repr, DecidableEq

/-- The trivial-move check at the top of `DB.compact1`. -/
def compact1Action (opts : Options) (c : Compaction) : Compact1Action :=
  match c.inputs0, c.inputs1 with
  | [meta], [] =>
    if totalSize c.inputs2 ≤ maxGrandparentOverlapBytes opts (c.level + 1) then
      .trivialMove ⟨[(c.level, meta.fileNum)], [(c.level + 1, meta)]⟩
    else .writeTables
  | _, _ => .writeTables

/-- Whether a file's key range intersects `[lo, hi]` (by user key). -/
def overlapsFile (lo hi : List Nat) (f : FileMeta) : Bool :=
  !(memcmp f.largest lo = .lt || memcmp hi f.smallest = .lt)

/-- Modelled from the spec: `version.overlaps` (defined outside the given
source files) returns all files of the level whose key range overlaps
`[lo, hi]`. -/
def overlaps (v : Version) (level : Nat) (lo hi : List Nat) : List FileMeta :=
  (v.files.getD level []).filter (overlapsFile lo hi)

/-- Modelled from the spec: `ikeyRange` (defined outside the given source
files) computes the smallest and largest key over a list of tables; only
the user-key components are consumed by `grow` and `setupOtherInputs`. -/
def ukeyRange : List FileMeta → List Nat × List Nat
  | [] => ([], [])
  | f :: rest =>
    rest.foldl
      (fun p g =>
        ((if memcmp g.smallest p.1 = .lt then g.smallest else p.1),
         (if memcmp p.2 g.largest = .lt then g.largest else p.2)))
      (f.smallest, f.largest)

/-- `compaction.grow`: `sm`/`la` are the smallest and largest user keys of
`inputs0 ++ inputs1`.  `none` means the inputs are left unchanged (the Go
method returns false); `some (g0, g1)` means `inputs[0] := g0` and
`inputs[1] := g1`. -/
def grow (opts : Options) (v : Version) (level : Nat)
    (inputs0 inputs1 : List FileMeta) (sm la : List Nat) :
    Option (List FileMeta × List FileMeta) :=
  if inputs1.length = 0 then none
  else
    let grow0 := overlaps v level sm la
    if grow0.length ≤ inputs0.length then none
    else if expandedCompactionByteSizeLimit opts (level + 1) ≤ totalSize grow0 + totalSize inputs1 then
      none
    else
      let r := ukeyRange grow0
      let grow1 := overlaps v (level + 1) r.1 r.2
      if grow1.length ≠ inputs1.length then none
      else some (grow0, grow1)

/-! ### Raw block iterator (`sstable/block.go`)

A block is modelled after decoding: the entry sequence (with the full,
prefix-decompressed keys) and the restart array as indices into that
sequence.  Go offsets correspond to entry indices; `Valid` is
`index < entries.length`. -/

structure RawBlock where
  entries : List (List Nat × List Nat)
  restarts : List Nat
deriving Repr, DecidableEq

def keyAt (b : RawBlock) (i : Nat) : List Nat :=
  (b.entries.getD i ([], [])).1

/-- The key decoded at restart point `j` (restart entries share no bytes
with their predecessor, so the stored key is the full key). -/
def restartKey (b : RawBlock) (j : Nat) : List Nat :=
  keyAt b (b.restarts.getD j 0)

/-- The linear scan at the end of `rawBlockIter.SeekGE`: from position `i`
on, the first entry whose key is `≥` the search key (`cmp(key, k) ≤ 0`
breaks the loop); `none` when the scan leaves the block (invalid). -/
def seekScan (key : List Nat) : Nat → List (List Nat × List Nat) → Option Nat
  | _, [] => none
  | i, e :: rest => if memcmp key e.1 = .gt then seekScan key (i + 1) rest else some i

/-- `rawBlockIter.SeekGE`: `sort.Search` over the restart points for the
smallest restart whose key is greater than the search key (modelled by its
contract, the least index satisfying the monotone predicate), then a
linear scan from the preceding restart point.  `some i` is the final
iterator position, `none` an invalid iterator. -/
def rawBlockSeekGE (b : RawBlock) (key : List Nat) : Option Nat :=
  let index := (List.range b.restarts.length).findIdx
    (fun j => memcmp key (restartKey b j) = .lt)
  let start := if 0 < index then b.restarts.getD (index - 1) 0 else 0
  seekScan key start (b.entries.drop start)

/-- `rawBlockIter.SeekLT` is `panic("pebble/table: SeekLT unimplemented")`
for every block and every key. -/
def rawBlockSeekLT (_b : RawBlock) (_key : List Nat) : Except String Nat :=
  .error "pebble/table: SeekLT unimplemented"

/-! ### Obsolete-file deletion (`DB.deleteObsoleteFiles`) -/

inductive FileType where
  | log
  | manifest
  | table
  | lock
  | current
  | temp
deriving Repr, DecidableEq

/-- The keep decision of `deleteObsoleteFiles`: `live` is the union of the
file numbers of every live Version and of `pendingOutputs` (the code
seeds `liveFileNums` from `pendingOutputs` and extends it with
`addLiveFileNums`); every file type other than log, manifest and table is
always kept. -/
def keepFile (live : List Nat) (logNumber manifestFileNumber : Nat) :
    FileType → Nat → Bool
  | .log, fn => logNumber ≤ fn
  | .manifest, fn => manifestFileNumber ≤ fn
  | .table, fn => live.contains fn
  | _, _ => true

/-- The removal loop of `deleteObsoleteFiles` over the directory listing;
`none` stands for a filename `parseDBFilename` rejects, on which the loop
returns early.  The result is the list of files removed. -/
def removedFiles (live : List Nat) (logNumber manifestFileNumber : Nat) :
    List (Option (FileType × Nat)) → List (FileType × Nat)
  | [] => []
  | none :: _ => []
  | some (ft, fn) :: rest =>
    (if keepFile live logNumber manifestFileNumber ft fn then []
     else [(ft, fn)]) ++ removedFiles live logNumber manifestFileNumber rest

/-- The count of the batch a mutator returned (0 on error); lets the count
theorems stay quantifier-free. -/
def countAfter (r : Except Err Batch) : Nat :=
  match r with
  | .ok b => b.count
  | .error _ => 0

/-- The batch obtained from an empty batch by `Merge("a", "b")` followed by
`Set("c", "d")`. -/
def c1Batch : Except Err Batch :=
  (Batch.empty.merge [97] [98]).bind (fun b => b.set [99] [100])

/-- A batch whose 32-bit count field holds `2^32 - 2` (little-endian bytes
`fe ff ff ff`). -/
def c3cb : Batch :=
  ⟨List.replicate 8 0, [254, 255, 255, 255], []⟩

/-- A batch with the all-zero header (count 0), as `Batch.init` creates. -/
def c3wb : Batch :=
  ⟨List.replicate 8 0, [0, 0, 0, 0], []⟩

/-- A level-2 file covering user keys `[5]..[6]`. -/
def c4meta : FileMeta := ⟨1, 10, [5], [6]⟩

/-- A compaction from level 0 whose only deeper file is `c4meta` at
level 2. -/
def c4c : Compaction :=
  ⟨⟨[[], [], [c4meta], [], [], [], []]⟩, 0, [], [], []⟩

/-- Two collapsed entries: a DELETE of `[3]` (whose key occurs nowhere at
level ≥ 2) and a SET of `[5]` (covered by `c4meta`). -/
def c4ents : List IEntry :=
  [⟨[3], 9, kindDelete, []⟩, ⟨[5], 8, kindSet, [1]⟩]

def c6opts : Options := ⟨[2, 2, 4]⟩

/-- A single-file compaction at level 1 with no level-2 inputs and no
grandparent inputs. -/
def c6c : Compaction := ⟨⟨[[]]⟩, 1, [c4meta], [], []⟩

def c7f1 : FileMeta := ⟨1, 50, [1], [2]⟩
def c7f2 : FileMeta := ⟨2, 30, [3], [4]⟩
def c7g : FileMeta := ⟨3, 20, [1], [4]⟩

/-- Level 1 holds `c7f1, c7f2`; level 2 holds `c7g`. -/
def c7v : Version := ⟨[[], [c7f1, c7f2], [c7g], [], [], [], []]⟩

def c7opts : Options := ⟨[2, 2, 4]⟩

/-- The joint user-key range of `inputs0 = [c7f1]` and `inputs1 = [c7g]`. -/
def c7range : List Nat × List Nat := ukeyRange ([c7f1] ++ [c7g])

/-- The user key `Batch.decode` yields at `offset` ( `[]` if corrupt). -/
def ukeyAt (data : List Nat) (off : Nat) : List Nat :=
  match batchDecodeAt data off with
  | some (_, uk, _) => uk
  | none => []

/-- The kind `Batch.decode` yields at `offset` (0 if corrupt). -/
def kindAt (data : List Nat) (off : Nat) : Nat :=
  match batchDecodeAt data off with
  | some (k, _, _) => k
  | none => 0

/-- The value `Batch.decode` yields at `offset`. -/
def valueAt (data : List Nat) (off : Nat) : Option (List Nat) :=
  match batchDecodeAt data off with
  | some (_, _, v) => v
  | none => none

/-- A three-entry block with restart points at entries 0 and 2. -/
def c8wb : RawBlock := ⟨[([1], [100]), ([3], [101]), ([5], [102])], [0, 2]⟩

/-- A one-entry block holding the key `"a"`. -/
def c8blk : RawBlock := ⟨[([97], [7])], [0]⟩

/-- The wire data of the indexed batch built by `Set("a","1");
Delete("a")`. -/
def c10data : List Nat :=
  match (Batch.empty.set [97] [49]).bind (fun b => b.delete [97]) with
  | .ok b => b.data
  | .error _ => []

/-- The skiplist order of that batch's two entries (equal user keys,
newest — larger offset — first): the Delete at offset 17, then the Set at
offset 12. -/
def c10idx : List Nat := [17, 12]

/-- The sorted-index relation of the batch skiplist: user keys ascending,
equal user keys by descending offset (newest insertion first). -/
def idxRel (data : List Nat) (o1 o2 : Nat) : Prop :=
  memcmp (ukeyAt data o1) (ukeyAt data o2) = .lt ∨
    (ukeyAt data o1 = ukeyAt data o2 ∧ o2 < o1)

instance (data : List Nat) : DecidableRel (idxRel data) := fun o1 o2 => by
  unfold idxRel
  infer_instance

/-! ## Theorems

General-purpose lemmas first, then one theorem per claim (with its witness
or counterexample where required). -/

theorem memcmp_eq_iff : ∀ a b : List Nat, memcmp a b = .eq ↔ a = b := by
  intro a
  induction a with
  | nil => intro b; cases b <;> simp [memcmp]
  | cons x as ih =>
    intro b
    cases b with
    | nil => simp [memcmp]
    | cons y bs =>
      by_cases h1 : x < y
      · simp [memcmp, h1]
        omega
      · by_cases h2 : y < x
        · simp [memcmp, h1, h2]
          omega
        · have hxy : x = y := by omega
          simp [memcmp, h1, h2, hxy, ih]

theorem memcmp_gt_iff_lt : ∀ a b : List Nat, memcmp a b = .gt ↔ memcmp b a = .lt := by
  intro a
  induction a with
  | nil => intro b; cases b <;> simp [memcmp]
  | cons x as ih =>
    intro b
    cases b with
    | nil => simp [memcmp]
    | cons y bs =>
      by_cases h1 : x < y
      · have h2 : ¬ y < x := by omega
        simp [memcmp, h1, h2]
      · by_cases h2 : y < x
        · simp [memcmp, h1, h2]
        · simp [memcmp, h1, h2, ih]

theorem memcmp_lt_trans :
    ∀ a b c : List Nat, memcmp a b = .lt → memcmp b c = .lt → memcmp a c = .lt := by
  intro a
  induction a with
  | nil =>
    intro b c hab hbc
    cases b with
    | nil => exact hbc
    | cons y bs =>
      cases c with
      | nil => simp [memcmp] at hbc
      | cons z cs => simp [memcmp]
  | cons x as ih =>
    intro b c hab hbc
    cases b with
    | nil => simp [memcmp] at hab
    | cons y bs =>
      cases c with
      | nil => simp [memcmp] at hbc
      | cons z cs =>
        simp only [memcmp] at hab hbc ⊢
        by_cases hxy : x < y
        · by_cases hyz : y < z
          · have : x < z := by omega
            simp [this]
          · by_cases hzy : z < y
            · simp [hyz, hzy] at hbc
            · have : y = z := by omega
              subst this
              simp [hxy]
        · by_cases hyx : y < x
          · simp [hxy, hyx] at hab
          · have hxyeq : x = y := by omega
            subst hxyeq
            simp [hxy, hyx] at hab
            by_cases hyz : x < z
            · simp [hyz]
            · by_cases hzy : z < x
              · simp [hyz, hzy] at hbc
              · simp [hyz, hzy] at hbc ⊢
                exact ih bs cs hab hbc

theorem memcmp_lt_of_lt_of_ne_gt {a b c : List Nat}
    (hab : memcmp a b = .lt) (hbc : memcmp b c ≠ .gt) : memcmp a c = .lt := by
  rcases h : memcmp b c with _ | _ | _
  · exact memcmp_lt_trans a b c hab h
  · rw [(memcmp_eq_iff b c).mp h] at hab; exact hab
  · exact absurd h hbc

theorem memcmp_lt_of_ne_gt_of_lt {a b c : List Nat}
    (hab : memcmp a b ≠ .gt) (hbc : memcmp b c = .lt) : memcmp a c = .lt := by
  rcases h : memcmp a b with _ | _ | _
  · exact memcmp_lt_trans a b c h hbc
  · rw [(memcmp_eq_iff a b).mp h]; exact hbc
  · exact absurd h hab

theorem memcmp_irrefl (a : List Nat) : memcmp a a = .eq :=
  (memcmp_eq_iff a a).mpr rfl

/-! ### Byte-wise increment -/

theorem incBytes_none_iff (bs : List Nat) (hb : ∀ x ∈ bs, x < 256) :
    incBytes bs = none ↔ ∀ x ∈ bs, x = 255 := by
  induction bs with
  | nil => simp [incBytes]
  | cons b rest ih =>
    have hbb : b < 256 := hb b (by simp)
    have hrest : ∀ x ∈ rest, x < 256 := fun x hx => hb x (by simp [hx])
    by_cases h255 : b = 255
    · subst h255
      simp only [incBytes]
      norm_num
      exact ih hrest
    · have : (b + 1) % 256 ≠ 0 := by omega
      simp [incBytes, this]
      omega

theorem incBytes_some_value (bs bs' : List Nat) (hb : ∀ x ∈ bs, x < 256)
    (h : incBytes bs = some bs') : leValue bs' = leValue bs + 1 := by
  induction bs generalizing bs' with
  | nil => simp [incBytes] at h
  | cons b rest ih =>
    have hbb : b < 256 := hb b (by simp)
    have hrest : ∀ x ∈ rest, x < 256 := fun x hx => hb x (by simp [hx])
    by_cases h255 : b = 255
    · subst h255
      simp only [incBytes] at h
      norm_num at h
      rcases h with ⟨r, hr, hbs'⟩
      subst hbs'
      have := ih r hrest hr
      simp [leValue, this]
      ring
    · have hmod : (b + 1) % 256 ≠ 0 := by omega
      simp [incBytes, hmod] at h
      subst h
      have : (b + 1) % 256 = b + 1 := Nat.mod_eq_of_lt (by omega)
      simp [leValue, this]
      ring

theorem leValue_lt (bs : List Nat) (hb : ∀ x ∈ bs, x < 256) :
    leValue bs < 256 ^ bs.length := by
  induction bs with
  | nil => simp [leValue]
  | cons b rest ih =>
    have hbb : b < 256 := hb b (by simp)
    have hrest := ih (fun x hx => hb x (by simp [hx]))
    simp only [leValue, List.length_cons, pow_succ]
    have h2 : 256 * leValue rest + 256 ≤ 256 * 256 ^ rest.length := by
      omega
    omega

theorem leValue_eq_max_iff (bs : List Nat) (hb : ∀ x ∈ bs, x < 256) :
    leValue bs = 256 ^ bs.length - 1 ↔ ∀ x ∈ bs, x = 255 := by
  induction bs with
  | nil => simp [leValue]
  | cons b rest ih =>
    have hbb : b < 256 := hb b (by simp)
    have hrest : ∀ x ∈ rest, x < 256 := fun x hx => hb x (by simp [hx])
    have hlt := leValue_lt rest hrest
    have hihr := ih hrest
    simp only [leValue, List.length_cons, pow_succ, List.mem_cons]
    constructor
    · intro h
      have h1 : b = 255 ∧ leValue rest = 256 ^ rest.length - 1 := by
        constructor <;> omega
      refine fun x hx => ?_
      rcases hx with rfl | hx
      · exact h1.1
      · exact hihr.mp h1.2 x hx
    · intro h
      have hb255 : b = 255 := h b (Or.inl rfl)
      have : leValue rest = 256 ^ rest.length - 1 :=
        hihr.mpr (fun x hx => h x (Or.inr hx))
      have hpos : 1 ≤ 256 ^ rest.length := Nat.one_le_pow _ _ (by norm_num)
      omega

/-! ### Claims C1 to C3 -/

/-- Claim C1 (code bug): the batch wire-format round trip fails on MERGE
entries.  `batchReader.next` decodes a value only for kinds SET and
RANGE_DELETE, so for the batch built by `Merge("a","b"); Set("c","d")` the
reader yields the merge entry without its value and then misparses the
following entry inside the merge value's bytes, instead of the appended
sequence `[(MERGE,"a","b"), (SET,"c","d")]`. -/
theorem c1_merge_value_not_decoded :
    c1Batch.map Batch.readAll = .ok [(kindMerge, [97], none)] ∧
    c1Batch.map Batch.readAll ≠
      .ok [(kindMerge, [97], some [98]), (kindSet, [99], some [100])] := by
  constructor
  · rfl
  · intro h
    rw [show c1Batch.map Batch.readAll = .ok [(kindMerge, [97], none)] from rfl] at h
    simp at h

/-- Claim C2 (code bug): when `mem.prepare` returns `ErrArenaFull` during
WAL replay, `DB.replayWAL` panics (the source carries a
`TODO(peter): write the memtable to disk`) instead of flushing the
memtable to an L0 SST and continuing with a fresh one. -/
theorem c2_replay_arena_full_panics :
    replayPrepareStep .arenaFull = .panicked ∧
    replayPrepareStep .arenaFull ≠ .applied := by
  exact ⟨rfl, by decide⟩

/-- Claim C3, amended: a mutator returns `InvalidBatch` exactly when the
count is already `2^32 - 1` (the invalid-batch marker, all four bytes
`0xff`, on which the byte-wise increment wraps around); for every smaller
count — including `2^32 - 2` — the mutator succeeds and the count grows by
one (so the increment from `2^32 - 2` succeeds and leaves the batch marked
invalid). -/
theorem c3_mutator_count (b : Batch) (key value : List Nat)
    (hlen : b.countData.length = 4) (hbytes : ∀ x ∈ b.countData, x < 256)
    (hinit : b.seqNumData ≠ []) :
    (b.count = 2 ^ 32 - 1 →
      b.set key value = .error .invalidBatch ∧
      b.merge key value = .error .invalidBatch ∧
      b.delete key = .error .invalidBatch ∧
      b.deleteRange key value = .error .invalidBatch) ∧
    (b.count < 2 ^ 32 - 1 →
      (b.set key value).isOk = true ∧ countAfter (b.set key value) = b.count + 1 ∧
      (b.merge key value).isOk = true ∧ countAfter (b.merge key value) = b.count + 1 ∧
      (b.delete key).isOk = true ∧ countAfter (b.delete key) = b.count + 1 ∧
      (b.deleteRange key value).isOk = true ∧
      countAfter (b.deleteRange key value) = b.count + 1) := by
  have hprep : b.prep = b := by
    simp [Batch.prep, List.isEmpty_iff, hinit]
  have hmax : (256 : Nat) ^ b.countData.length - 1 = 2 ^ 32 - 1 := by
    rw [hlen]; norm_num
  constructor
  · intro hcount
    have hall : ∀ x ∈ b.countData, x = 255 := by
      rw [← leValue_eq_max_iff b.countData hbytes]
      rw [hmax]
      exact hcount
    have hnone : incBytes b.countData = none :=
      (incBytes_none_iff b.countData hbytes).mpr hall
    have hincr : b.increment = none := by
      simp [Batch.increment, hnone]
    refine ⟨?_, ?_, ?_, ?_⟩ <;>
      simp [Batch.set, Batch.merge, Batch.delete, Batch.deleteRange, hprep, hincr]
  · intro hcount
    have hcount' : leValue b.countData < 2 ^ 32 - 1 := hcount
    have hne : ¬ ∀ x ∈ b.countData, x = 255 := by
      rw [← leValue_eq_max_iff b.countData hbytes, hmax]
      omega
    have hsome : incBytes b.countData ≠ none := by
      intro h
      exact hne ((incBytes_none_iff b.countData hbytes).mp h)
    rcases hcd : incBytes b.countData with _ | cd
    · exact absurd hcd hsome
    have hval : leValue cd = b.count + 1 :=
      incBytes_some_value b.countData cd hbytes hcd
    have hincr : b.increment = some { b with countData := cd } := by
      simp [Batch.increment, hcd]
    refine ⟨?_, ?_, ?_, ?_, ?_, ?_, ?_, ?_⟩ <;>
      simp [Batch.set, Batch.merge, Batch.delete, Batch.deleteRange, hprep, hincr,
        countAfter, Except.isOk, Except.toBool, Batch.count, hval]

/-- Witness for `c3_mutator_count` at the freshly initialized batch
(count 0): both hypotheses hold and the mutators succeed. -/
theorem c3_mutator_count_witness :
    c3wb.countData.length = 4 ∧ (∀ x ∈ c3wb.countData, x < 256) ∧ c3wb.seqNumData ≠ [] ∧
    ((c3wb.count = 2 ^ 32 - 1 →
      c3wb.set [7] [8] = .error .invalidBatch ∧
      c3wb.merge [7] [8] = .error .invalidBatch ∧
      c3wb.delete [7] = .error .invalidBatch ∧
      c3wb.deleteRange [7] [8] = .error .invalidBatch) ∧
    (c3wb.count < 2 ^ 32 - 1 →
      (c3wb.set [7] [8]).isOk = true ∧ countAfter (c3wb.set [7] [8]) = c3wb.count + 1 ∧
      (c3wb.merge [7] [8]).isOk = true ∧ countAfter (c3wb.merge [7] [8]) = c3wb.count + 1 ∧
      (c3wb.delete [7]).isOk = true ∧ countAfter (c3wb.delete [7]) = c3wb.count + 1 ∧
      (c3wb.deleteRange [7] [8]).isOk = true ∧
      countAfter (c3wb.deleteRange [7] [8]) = c3wb.count + 1)) :=
  ⟨by decide, by decide, by decide,
    c3_mutator_count c3wb [7] [8] (by decide) (by decide) (by decide)⟩

/-- Counterexample to claim C3 as stated: with the count at `2^32 - 2` the
claim demands `InvalidBatch`, but `Set` succeeds and the count becomes
`2^32 - 1` (the invalid marker). -/
theorem c3_counterexample :
    c3cb.count = 2 ^ 32 - 2 ∧ (c3cb.set [7] [8]).isOk = true ∧
    countAfter (c3cb.set [7] [8]) = 2 ^ 32 - 1 := by
  refine ⟨by decide, ?_, ?_⟩ <;> decide

/-! ### Claim C5: the compaction iterator's merge fold -/

theorem mergeNext_run (m : MergeFn) (k : List Nat) (ms : List IEntry)
    (e : IEntry) (rest : List IEntry) (acc : List Nat)
    (hms : ∀ x ∈ ms, x.kind = kindMerge ∧ x.ukey = k) (he : e.ukey = k) :
    (e.kind = kindSet →
      mergeNext m k acc (ms ++ e :: rest) =
        .ok (kindSet, m k (ms.foldl (fun a x => m k a x.val) acc) e.val,
          e :: rest, .cur)) ∧
    (e.kind = kindDelete →
      mergeNext m k acc (ms ++ e :: rest) =
        .ok (kindMerge, ms.foldl (fun a x => m k a x.val) acc, e :: rest, .cur)) := by
  induction ms generalizing acc with
  | nil =>
    constructor
    · intro hk
      simp [mergeNext, he, memcmp_irrefl, hk, kindSet, kindDelete]
    · intro hk
      simp [mergeNext, he, memcmp_irrefl, hk, kindDelete]
  | cons x ms' ih =>
    have hx := hms x (by simp)
    have hms' : ∀ y ∈ ms', y.kind = kindMerge ∧ y.ukey = k :=
      fun y hy => hms y (by simp [hy])
    have step : mergeNext m k acc ((x :: ms') ++ e :: rest) =
        mergeNext m k (m k acc x.val) (ms' ++ e :: rest) := by
      simp [mergeNext, hx.1, hx.2, memcmp_irrefl, kindMerge, kindDelete, kindSet]
    rw [step]
    have := ih (m k acc x.val) hms'
    simpa using this

/-- Claim C5: when the compaction iterator collapses a run that starts
with a MERGE and, after folding any further MERGE entries for the same
user key, reaches an older SET, it merges the SET's value into the
accumulated value, emits it with kind SET, and the step consumes no
further entries for that user key (`NextUserKey` skips them); reaching an
older DELETE stops the fold and the accumulated value is emitted with
kind MERGE. -/
theorem c5_merge_fold (m : MergeFn) (k v0 : List Nat) (seq0 : Nat)
    (ms : List IEntry) (e : IEntry) (rest : List IEntry)
    (hms : ∀ x ∈ ms, x.kind = kindMerge ∧ x.ukey = k) (he : e.ukey = k) :
    (e.kind = kindSet →
      emitStep m (⟨k, seq0, kindMerge, v0⟩ :: (ms ++ e :: rest)) =
        .ok (some ((kindSet, k, m k (ms.foldl (fun a x => m k a x.val) v0) e.val),
          skipUserKey k (e :: rest)))) ∧
    (e.kind = kindDelete →
      emitStep m (⟨k, seq0, kindMerge, v0⟩ :: (ms ++ e :: rest)) =
        .ok (some ((kindMerge, k, ms.foldl (fun a x => m k a x.val) v0),
          skipUserKey k (e :: rest)))) := by
  have hrun := mergeNext_run m k ms e rest v0 hms he
  constructor
  · intro hk
    have h1 := hrun.1 hk
    simp [emitStep, findNextEntry, kindMerge, kindDelete, kindSet, h1, Except.map]
  · intro hk
    have h2 := hrun.2 hk
    simp [emitStep, findNextEntry, kindMerge, kindDelete, kindSet, h2, Except.map]

/-- Witness for `c5_merge_fold` with the concatenating merge operator: the
run `MERGE k:"[10]", MERGE k:"[11]"` followed by `SET k:"[12]"` emits
`SET k with [10]++[11]++[12]` and skips the older `k` entry in the tail,
leaving only the next user key. -/
theorem c5_merge_fold_witness :
    (∀ x ∈ [(⟨[1], 5, kindMerge, [11]⟩ : IEntry)], x.kind = kindMerge ∧ x.ukey = [1]) ∧
    (⟨[1], 4, kindSet, [12]⟩ : IEntry).ukey = [1] ∧
    ((⟨[1], 4, kindSet, [12]⟩ : IEntry).kind = kindSet →
      emitStep (fun _ a b => a ++ b)
        (⟨[1], 6, kindMerge, [10]⟩ ::
          ([⟨[1], 5, kindMerge, [11]⟩] ++ ⟨[1], 4, kindSet, [12]⟩ ::
            [⟨[1], 3, kindSet, [9]⟩, ⟨[2], 2, kindDelete, []⟩])) =
        .ok (some ((kindSet, [1],
          (fun (_ : List Nat) (a b : List Nat) => a ++ b) [1]
            (([⟨[1], 5, kindMerge, [11]⟩] : List IEntry).foldl
              (fun a x => (fun (_ : List Nat) (a b : List Nat) => a ++ b) [1] a x.val) [10])
            [12]),
          skipUserKey [1]
            (⟨[1], 4, kindSet, [12]⟩ ::
              [⟨[1], 3, kindSet, [9]⟩, ⟨[2], 2, kindDelete, []⟩])))) :=
  ⟨by decide, rfl,
    (c5_merge_fold (fun _ a b => a ++ b) [1] [10] 6
      [⟨[1], 5, kindMerge, [11]⟩] ⟨[1], 4, kindSet, [12]⟩
      [⟨[1], 3, kindSet, [9]⟩, ⟨[2], 2, kindDelete, []⟩]
      (by decide) rfl).1⟩

/-! ### Claim C4: DELETE dropping in compaction output -/

theorem levelContainsBreak_iff (ukey : List Nat) (lvl : List FileMeta)
    (hs : lvl.Pairwise (fun f g => memcmp f.smallest g.smallest ≠ .gt)) :
    levelContainsBreak ukey lvl = true ↔
      ∃ f ∈ lvl, memcmp ukey f.smallest ≠ .lt ∧ memcmp ukey f.largest ≠ .gt := by
  induction lvl with
  | nil => simp [levelContainsBreak]
  | cons f rest ih =>
    rcases List.pairwise_cons.mp hs with ⟨hf, hrest⟩
    by_cases hla : memcmp ukey f.largest = .gt
    · have : levelContainsBreak ukey (f :: rest) = levelContainsBreak ukey rest := by
        simp [levelContainsBreak, hla]
      rw [this, ih hrest]
      constructor
      · rintro ⟨g, hg, hgp⟩
        exact ⟨g, by simp [hg], hgp⟩
      · rintro ⟨g, hg, hgp⟩
        rcases List.mem_cons.mp hg with rfl | hg'
        · exact absurd hla hgp.2
        · exact ⟨g, hg', hgp⟩
    · by_cases hsm : memcmp ukey f.smallest = .lt
      · have hval : levelContainsBreak ukey (f :: rest) = false := by
          simp [levelContainsBreak, hla, hsm]
        rw [hval]
        constructor
        · intro h
          simp at h
        · rintro ⟨g, hg, hgp⟩
          exfalso
          rcases List.mem_cons.mp hg with rfl | hg'
          · exact hgp.1 hsm
          · exact hgp.1 (memcmp_lt_of_lt_of_ne_gt hsm (hf g hg'))
      · have hval : levelContainsBreak ukey (f :: rest) = true := by
          simp [levelContainsBreak, hla, hsm]
        rw [hval]
        constructor
        · intro _
          exact ⟨f, by simp, hsm, hla⟩
        · intro _
          rfl

theorem isBaseLevelForUkey_iff (c : Compaction) (ukey : List Nat)
    (hs : ∀ lvl ∈ c.version.files.drop (c.level + 2),
      lvl.Pairwise (fun f g => memcmp f.smallest g.smallest ≠ .gt)) :
    isBaseLevelForUkey c ukey = true ↔
      ∀ lvl ∈ c.version.files.drop (c.level + 2), ∀ f ∈ lvl,
        ¬(memcmp ukey f.smallest ≠ .lt ∧ memcmp ukey f.largest ≠ .gt) := by
  simp only [isBaseLevelForUkey, List.all_eq_true, Bool.not_eq_true']
  constructor
  · intro h lvl hlvl f hf hfp
    have hb := h lvl hlvl
    have := (levelContainsBreak_iff ukey lvl (hs lvl hlvl)).mpr ⟨f, hf, hfp⟩
    rw [this] at hb
    exact absurd hb (by simp)
  · intro h lvl hlvl
    rcases hb : levelContainsBreak ukey lvl with _ | _
    · rfl
    · rcases (levelContainsBreak_iff ukey lvl (hs lvl hlvl)).mp hb with ⟨f, hf, hfp⟩
      exact absurd hfp (h lvl hlvl f hf)

/-- Claim C4: a collapsed entry is omitted from the compaction output
exactly when its kind is DELETE and `isBaseLevelForUkey` holds, where
`isBaseLevelForUkey` (given the per-level sort invariant of levels ≥ 1)
holds exactly when no file at any level `≥ c.level + 2` has
`smallest ≤ ukey ≤ largest`; and since the compaction iterator emits at
most one entry per user key, no entry with the dropped DELETE's user key
remains in the output. -/
theorem c4_delete_dropped (c : Compaction) (ents : List IEntry)
    (hs : ∀ lvl ∈ c.version.files.drop (c.level + 2),
      lvl.Pairwise (fun f g => memcmp f.smallest g.smallest ≠ .gt))
    (hnd : (ents.map IEntry.ukey).Nodup) :
    (∀ e ∈ ents,
      (e ∈ compactOutput c ents ↔
        ¬(e.kind = kindDelete ∧ isBaseLevelForUkey c e.ukey = true))) ∧
    (∀ ukey, isBaseLevelForUkey c ukey = true ↔
      ∀ lvl ∈ c.version.files.drop (c.level + 2), ∀ f ∈ lvl,
        ¬(memcmp ukey f.smallest ≠ .lt ∧ memcmp ukey f.largest ≠ .gt)) ∧
    (∀ e ∈ ents, e.kind = kindDelete → isBaseLevelForUkey c e.ukey = true →
      ∀ e2 ∈ compactOutput c ents, e2.ukey ≠ e.ukey) := by
  have hmem : ∀ e ∈ ents,
      (e ∈ compactOutput c ents ↔
        ¬(e.kind = kindDelete ∧ isBaseLevelForUkey c e.ukey = true)) := by
    intro e he
    simp [compactOutput, List.mem_filter, he, kindDelete]
    tauto
  refine ⟨hmem, fun ukey => isBaseLevelForUkey_iff c ukey hs, ?_⟩
  intro e he hk hb e2 he2 huk
  have he2' : e2 ∈ ents := (List.mem_filter.mp he2).1
  have : e2 = e := List.inj_on_of_nodup_map hnd he2' he huk
  subst this
  exact ((hmem e2 he).mp he2) ⟨hk, hb⟩

/-- Witness for `c4_delete_dropped`: with one level-2 file on `[5]..[6]`,
the DELETE of `[3]` is dropped (base level) and the SET of `[5]` is kept. -/
theorem c4_delete_dropped_witness :
    (∀ lvl ∈ c4c.version.files.drop (c4c.level + 2),
      lvl.Pairwise (fun f g => memcmp f.smallest g.smallest ≠ .gt)) ∧
    (c4ents.map IEntry.ukey).Nodup ∧
    (∀ e ∈ c4ents, e.kind = kindDelete → isBaseLevelForUkey c4c e.ukey = true →
      ∀ e2 ∈ compactOutput c4c c4ents, e2.ukey ≠ e.ukey) :=
  ⟨by decide, by decide,
    (c4_delete_dropped c4c c4ents (by decide) (by decide)).2.2⟩

/-! ### Claim C6: the trivial move -/

/-- Claim C6: a picked compaction with exactly one input file at level L,
no overlapping level-L+1 files and grandparent inputs of total size at
most `10 × target_file_size(L+1)` is executed as a trivial move: the
VersionEdit deletes the file from level L and adds the identical metadata
at level L+1, and `compact1` returns without writing any table. -/
theorem c6_trivial_move (opts : Options) (c : Compaction) (meta : FileMeta)
    (h0 : c.inputs0 = [meta]) (h1 : c.inputs1 = [])
    (h2 : totalSize c.inputs2 ≤ 10 * targetFileSize opts (c.level + 1)) :
    compact1Action opts c =
      .trivialMove ⟨[(c.level, meta.fileNum)], [(c.level + 1, meta)]⟩ := by
  rw [compact1Action, h0, h1]
  simp [maxGrandparentOverlapBytes, h2]

/-- Witness for `c6_trivial_move` on a concrete single-file compaction. -/
theorem c6_trivial_move_witness :
    c6c.inputs0 = [c4meta] ∧ c6c.inputs1 = [] ∧
    totalSize c6c.inputs2 ≤ 10 * targetFileSize c6opts (c6c.level + 1) ∧
    compact1Action c6opts c6c =
      .trivialMove ⟨[(c6c.level, c4meta.fileNum)], [(c6c.level + 1, c4meta)]⟩ :=
  ⟨rfl, rfl, by decide, c6_trivial_move c6opts c6c c4meta rfl rfl (by decide)⟩

/-! ### Claim C7: growing the compaction inputs -/

/-- Claim C7, amended: `grow` enlarges `inputs[0]` to the level-L files
overlapping the joint range (and recomputes `inputs[1]` over their range)
if and only if `inputs[1]` is non-empty, additional level-L files overlap
the joint range, the number of overlapping level-L+1 files is unchanged,
and the total size of the grown `inputs[0]` plus `inputs[1]` is STRICTLY
LESS THAN `25 × target_file_size(L+1)` (the source rejects equality with
`>=`); in every other case the inputs are left unchanged (`none`). -/
theorem c7_grow_strict (opts : Options) (v : Version) (level : Nat)
    (i0 i1 : List FileMeta) (sm la : List Nat) :
    (grow opts v level i0 i1 sm la =
      some (overlaps v level sm la,
        overlaps v (level + 1) (ukeyRange (overlaps v level sm la)).1
          (ukeyRange (overlaps v level sm la)).2) ↔
      (i1.length ≠ 0 ∧
        i0.length < (overlaps v level sm la).length ∧
        totalSize (overlaps v level sm la) + totalSize i1 <
          expandedCompactionByteSizeLimit opts (level + 1) ∧
        (overlaps v (level + 1) (ukeyRange (overlaps v level sm la)).1
          (ukeyRange (overlaps v level sm la)).2).length = i1.length)) ∧
    (grow opts v level i0 i1 sm la = none ∨
      grow opts v level i0 i1 sm la =
        some (overlaps v level sm la,
          overlaps v (level + 1) (ukeyRange (overlaps v level sm la)).1
            (ukeyRange (overlaps v level sm la)).2)) := by
  simp only [grow]
  split_ifs with h1 h2 h3 h4
  · simp [h1]
  · constructor
    · constructor
      · intro h
        simp at h
      · intro h
        omega
    · exact Or.inl rfl
  · constructor
    · constructor
      · intro h
        simp at h
      · intro h
        omega
    · exact Or.inl rfl
  · constructor
    · constructor
      · intro h
        simp at h
      · intro h
        exact absurd h.2.2.2 h4
    · exact Or.inl rfl
  · constructor
    · constructor
      · intro _
        exact ⟨h1, by omega, by omega, by omega⟩
      · intro _
        rfl
    · exact Or.inr rfl

/-- Counterexample to claim C7 as stated: additional level-1 files overlap
the joint range, the level-2 file count is unchanged and the total size is
exactly `25 × target_file_size(2)` — "at most" per the claim, so the claim
demands growth — yet `grow` rejects it (the source requires strict
inequality) and leaves the inputs unchanged. -/
theorem c7_counterexample :
    grow c7opts c7v 1 [c7f1] [c7g] c7range.1 c7range.2 = none ∧
    ([c7f1] : List FileMeta).length < (overlaps c7v 1 c7range.1 c7range.2).length ∧
    (overlaps c7v 2 (ukeyRange (overlaps c7v 1 c7range.1 c7range.2)).1
      (ukeyRange (overlaps c7v 1 c7range.1 c7range.2)).2).length =
      ([c7g] : List FileMeta).length ∧
    totalSize (overlaps c7v 1 c7range.1 c7range.2) + totalSize [c7g] ≤
      25 * targetFileSize c7opts 2 := by
  refine ⟨?_, ?_, ?_, ?_⟩ <;> decide

/-! ### Claim C8: block iterator seeks -/

theorem getD_drop (l : List (List Nat × List Nat)) (i j : Nat) :
    (l.drop i).getD j ([], []) = l.getD (i + j) ([], []) := by
  simp [List.getD_eq_getElem?_getD, List.getElem?_drop]

theorem keyAt_of_lt (b : RawBlock) (j : Nat) (h : j < b.entries.length) :
    keyAt b j = (b.entries[j]).1 := by
  simp [keyAt, List.getD_eq_getElem?_getD, List.getElem?_eq_getElem h]

theorem seekScan_some (key : List Nat) :
    ∀ (l : List (List Nat × List Nat)) (i0 r : Nat),
      seekScan key i0 l = some r →
      i0 ≤ r ∧ r - i0 < l.length ∧
        memcmp key (l.getD (r - i0) ([], [])).1 ≠ .gt ∧
        ∀ d < r - i0, memcmp key (l.getD d ([], [])).1 = .gt := by
  intro l
  induction l with
  | nil => intro i0 r h; simp [seekScan] at h
  | cons e rest ih =>
    intro i0 r h
    by_cases hgt : memcmp key e.1 = .gt
    · have h' : seekScan key (i0 + 1) rest = some r := by
        simpa [seekScan, hgt] using h
      rcases ih (i0 + 1) r h' with ⟨hle, hlen, hkey, hall⟩
      have hi0r : i0 + 1 ≤ r := hle
      refine ⟨by omega, by simp; omega, ?_, ?_⟩
      · have : r - i0 = (r - (i0 + 1)) + 1 := by omega
        rw [this]
        simpa using hkey
      · intro d hd
        match d with
        | 0 => simpa [List.getD] using hgt
        | d + 1 =>
          have : d < r - (i0 + 1) := by omega
          simpa using hall d this
    · have hr : r = i0 := by
        have : seekScan key i0 (e :: rest) = some i0 := by simp [seekScan, hgt]
        rw [this] at h
        exact (Option.some_inj.mp h).symm
      subst hr
      refine ⟨le_refl _, by simp, ?_, ?_⟩
      · simpa [List.getD] using hgt
      · intro d hd
        omega

theorem seekScan_none (key : List Nat) :
    ∀ (l : List (List Nat × List Nat)) (i0 : Nat),
      seekScan key i0 l = none →
      ∀ d < l.length, memcmp key (l.getD d ([], [])).1 = .gt := by
  intro l
  induction l with
  | nil => intro i0 _ d hd; simp at hd
  | cons e rest ih =>
    intro i0 h d hd
    by_cases hgt : memcmp key e.1 = .gt
    · have h' : seekScan key (i0 + 1) rest = none := by
        simpa [seekScan, hgt] using h
      match d with
      | 0 => simpa [List.getD] using hgt
      | d + 1 =>
        have : d < rest.length := by simpa using hd
        simpa using ih (i0 + 1) h' d this
    · simp [seekScan, hgt] at h

/-- Every entry strictly before position `start` compares below the search
key, provided the entry at `start` does. -/
theorem before_start_gt (b : RawBlock) (key : List Nat) (start : Nat)
    (hstart : start < b.entries.length)
    (hsort : b.entries.Pairwise (fun x y => memcmp x.1 y.1 = .lt))
    (hks : memcmp key (keyAt b start) ≠ .lt) :
    ∀ j < start, memcmp key (keyAt b j) = .gt := by
  intro j hj
  have hjlen : j < b.entries.length := lt_trans hj hstart
  have hlt : memcmp (b.entries[j]).1 (b.entries[start]).1 = .lt :=
    List.pairwise_iff_getElem.mp hsort j start hjlen hstart hj
  have hks' : memcmp (keyAt b start) key ≠ .gt := by
    intro hgt
    exact hks ((memcmp_gt_iff_lt _ _).mp hgt)
  rw [keyAt_of_lt b start hstart] at hks'
  have : memcmp (b.entries[j]).1 key = .lt :=
    memcmp_lt_of_lt_of_ne_gt hlt hks'
  rw [keyAt_of_lt b j hjlen]
  exact (memcmp_gt_iff_lt _ _).mpr this

/-- Claim C8, amended: on a well-formed block (valid restart offsets,
strictly increasing keys) `SeekGE(k)` positions the iterator on the
smallest key `≥ k`, or renders it invalid when no such key exists; but
`SeekLT` is unimplemented and panics for every block and key (so it never
positions the iterator on the largest key `< k`). -/
theorem c8_block_seek (b : RawBlock) (key : List Nat)
    (hrv : ∀ r ∈ b.restarts, r < b.entries.length)
    (hsort : b.entries.Pairwise (fun x y => memcmp x.1 y.1 = .lt)) :
    (∀ i, rawBlockSeekGE b key = some i →
      i < b.entries.length ∧ memcmp key (keyAt b i) ≠ .gt ∧
        ∀ j < i, memcmp key (keyAt b j) = .gt) ∧
    (rawBlockSeekGE b key = none →
      ∀ j < b.entries.length, memcmp key (keyAt b j) = .gt) ∧
    (∀ (b2 : RawBlock) (k2 : List Nat),
      rawBlockSeekLT b2 k2 = .error "pebble/table: SeekLT unimplemented") := by
  classical
  set n := b.restarts.length with hn
  set pred := fun j => decide (memcmp key (restartKey b j) = .lt) with hpred
  set index := (List.range n).findIdx pred with hindex
  set start := if 0 < index then b.restarts.getD (index - 1) 0 else 0 with hstart
  have hseek : rawBlockSeekGE b key = seekScan key start (b.entries.drop start) := by
    rw [rawBlockSeekGE]
  -- Everything before `start` compares below the search key.
  have hbefore : ∀ j < start, memcmp key (keyAt b j) = .gt := by
    by_cases hpos : 0 < index
    · have hidxlen : index ≤ n := by
        have := @List.findIdx_le_length Nat pred (List.range n)
        simpa using this
      have hi' : index - 1 < n := by omega
      have hi'' : index - 1 < (List.range n).length := by simpa using hi'
      have hfalse : pred ((List.range n)[index - 1]) = false :=
        List.not_of_lt_findIdx (by omega)
      rw [List.getElem_range] at hfalse
      have hnlt : memcmp key (restartKey b (index - 1)) ≠ .lt := by
        intro hcontra
        rw [hpred] at hfalse
        simp [hcontra] at hfalse
      have hmem : b.restarts.getD (index - 1) 0 ∈ b.restarts := by
        rw [List.getD_eq_getElem?_getD, List.getElem?_eq_getElem hi']
        exact List.getElem_mem _
      have hstartval : start = b.restarts.getD (index - 1) 0 := by
        rw [hstart, if_pos hpos]
      have hstartlt : start < b.entries.length := by
        rw [hstartval]; exact hrv _ hmem
      have hks : memcmp key (keyAt b start) ≠ .lt := by
        rw [hstartval]
        exact hnlt
      exact before_start_gt b key start hstartlt hsort hks
    · intro j hj
      rw [hstart, if_neg hpos] at hj
      omega
  refine ⟨?_, ?_, fun _ _ => rfl⟩
  · intro i hi
    rw [hseek] at hi
    rcases seekScan_some key (b.entries.drop start) start i hi with ⟨hle, hlen, hkey, hall⟩
    rw [List.length_drop] at hlen
    have hilt : i < b.entries.length := by omega
    refine ⟨hilt, ?_, ?_⟩
    · rw [getD_drop] at hkey
      have : start + (i - start) = i := by omega
      rw [this] at hkey
      exact hkey
    · intro j hj
      by_cases hjs : j < start
      · exact hbefore j hjs
      · have hd : j - start < i - start := by omega
        have := hall (j - start) hd
        rw [getD_drop] at this
        have heq : start + (j - start) = j := by omega
        rw [heq] at this
        exact this
  · intro hnone j hj
    rw [hseek] at hnone
    by_cases hjs : j < start
    · exact hbefore j hjs
    · have hd : j - start < (b.entries.drop start).length := by
        rw [List.length_drop]; omega
      have := seekScan_none key (b.entries.drop start) start hnone (j - start) hd
      rw [getD_drop] at this
      have heq : start + (j - start) = j := by omega
      rw [heq] at this
      exact this

/-- Witness for `c8_block_seek` on a concrete three-entry block. -/
theorem c8_block_seek_witness :
    (∀ r ∈ c8wb.restarts, r < c8wb.entries.length) ∧
    (c8wb.entries.Pairwise (fun x y => memcmp x.1 y.1 = .lt)) ∧
    ((∀ i, rawBlockSeekGE c8wb [2] = some i →
      i < c8wb.entries.length ∧ memcmp [2] (keyAt c8wb i) ≠ .gt ∧
        ∀ j < i, memcmp [2] (keyAt c8wb j) = .gt) ∧
    (rawBlockSeekGE c8wb [2] = none →
      ∀ j < c8wb.entries.length, memcmp [2] (keyAt c8wb j) = .gt) ∧
    (∀ (b2 : RawBlock) (k2 : List Nat),
      rawBlockSeekLT b2 k2 = .error "pebble/table: SeekLT unimplemented")) :=
  ⟨by decide, by decide, c8_block_seek c8wb [2] (by decide) (by decide)⟩

/-- Counterexample to claim C8 as stated: the block holds the key `"a"`,
which is the largest key `< "b"`, so the claim requires `SeekLT("b")` to
position the iterator on it; instead `SeekLT` panics (unimplemented) on
every input. -/
theorem c8_counterexample :
    rawBlockSeekLT c8blk [98] = .error "pebble/table: SeekLT unimplemented" ∧
    memcmp (keyAt c8blk 0) [98] = .lt :=
  ⟨rfl, by decide⟩

/-! ### Claim C9: obsolete-file deletion never removes live files -/

/-- Claim C9: `deleteObsoleteFiles` removes only tables whose file number
is outside the live set (the union of every live Version's file numbers
and `pendingOutputs`), logs with file number below `logNumber`, and
manifests below `manifestFileNumber`; in particular every table in the
live set is kept. -/
theorem c9_gc_only_obsolete (live : List Nat) (logNumber manifestFileNumber : Nat)
    (fs : List (Option (FileType × Nat))) :
    ∀ ft fn, (ft, fn) ∈ removedFiles live logNumber manifestFileNumber fs →
      (ft = .table ∧ fn ∉ live) ∨ (ft = .log ∧ fn < logNumber) ∨
        (ft = .manifest ∧ fn < manifestFileNumber) := by
  induction fs with
  | nil =>
    intro ft fn h
    simp [removedFiles] at h
  | cons o rest ih =>
    intro ft fn h
    match o with
    | none => simp [removedFiles] at h
    | some (ft2, fn2) =>
      rw [removedFiles] at h
      by_cases hk : keepFile live logNumber manifestFileNumber ft2 fn2
      · rw [if_pos hk] at h
        exact ih ft fn (by simpa using h)
      · rw [if_neg hk] at h
        have h2 : (ft = ft2 ∧ fn = fn2) ∨
            (ft, fn) ∈ removedFiles live logNumber manifestFileNumber rest := by
          simpa using h
        rcases h2 with ⟨hft, hfn⟩ | hrest
        · subst hft
          subst hfn
          cases ft with
          | log =>
            refine Or.inr (Or.inl ⟨rfl, ?_⟩)
            simp [keepFile] at hk
            omega
          | manifest =>
            refine Or.inr (Or.inr ⟨rfl, ?_⟩)
            simp [keepFile] at hk
            omega
          | table =>
            refine Or.inl ⟨rfl, ?_⟩
            simpa [keepFile] using hk
          | lock => simp [keepFile] at hk
          | current => simp [keepFile] at hk
          | temp => simp [keepFile] at hk
        · exact ih ft fn hrest

/-- Witness for `c9_gc_only_obsolete`: with an empty live set, the table
file 5 is removed, and the theorem classifies it as a non-live table. -/
theorem c9_gc_only_obsolete_witness :
    (FileType.table, 5) ∈ removedFiles [] 1 1 [some (.table, 5)] ∧
    ((FileType.table = .table ∧ 5 ∉ ([] : List Nat)) ∨
      (FileType.table = .log ∧ 5 < 1) ∨ (FileType.table = .manifest ∧ 5 < 1)) :=
  ⟨by decide, c9_gc_only_obsolete [] 1 1 [some (.table, 5)] .table 5 (by decide)⟩

/-! ### Claim C10: `Batch.Get` over the indexed batch -/

theorem storageUkey_of_decode (data : List Nat) (off : Nat)
    (k : Nat) (uk : List Nat) (v : Option (List Nat))
    (h : batchDecodeAt data off = some (k, uk, v)) :
    storageUkey data off = some uk := by
  rw [batchDecodeAt] at h
  rw [storageUkey]
  rcases hd : data.drop off with _ | ⟨kb, p⟩
  · rw [hd] at h
    simp [decodeEntry] at h
  · rw [hd] at h
    rw [decodeEntry] at h
    rw [storageUkeyAux]
    by_cases hmax : kb > kindMax
    · rw [if_pos hmax] at h
      exact absurd h (by simp)
    · rw [if_neg hmax] at h
      rcases hds : batchDecodeStr p with _ | ⟨uk2, p1⟩
      · simp only [hds] at h
        simp at h
      · simp only [hds] at h
        by_cases hkind : kb = kindSet ∨ kb = kindMerge ∨ kb = kindRangeDelete
        · rw [if_pos hkind] at h
          rcases hds2 : batchDecodeStr p1 with _ | ⟨v2, p2⟩
          · simp only [hds2] at h
            simp at h
          · simp only [hds2] at h
            simp at h
            simp [h.2.1]
        · rw [if_neg hkind] at h
          simp at h
          simp [h.2.1]

theorem decodeAt_delete_value (data : List Nat) (off : Nat)
    (uk : List Nat) (v : Option (List Nat))
    (h : batchDecodeAt data off = some (kindDelete, uk, v)) : v = none := by
  rw [batchDecodeAt] at h
  rcases hd : data.drop off with _ | ⟨kb, p⟩
  · rw [hd] at h
    simp [decodeEntry] at h
  · rw [hd] at h
    rw [decodeEntry] at h
    by_cases hmax : kb > kindMax
    · rw [if_pos hmax] at h
      exact absurd h (by simp)
    · rw [if_neg hmax] at h
      rcases hds : batchDecodeStr p with _ | ⟨uk2, p1⟩
      · simp only [hds] at h
        simp at h
      · simp only [hds] at h
        by_cases hkind : kb = kindSet ∨ kb = kindMerge ∨ kb = kindRangeDelete
        · rw [if_pos hkind] at h
          rcases hds2 : batchDecodeStr p1 with _ | ⟨v2, p2⟩
          · simp only [hds2] at h
            simp at h
          · simp only [hds2] at h
            simp at h
            rcases hkind with hk | hk | hk <;>
              · rw [hk] at h
                simp [kindDelete, kindSet, kindMerge, kindRangeDelete] at h
        · rw [if_neg hkind] at h
          simp at h
          exact h.2.2.symm

theorem batchGet_found (data key : List Nat) :
    ∀ idx : List Nat,
      (∀ off ∈ idx, (batchDecodeAt data off).isSome = true) →
      idx.Pairwise (idxRel data) →
      ∀ off ∈ idx, ukeyAt data off = key →
        (∀ off2 ∈ idx, ukeyAt data off2 = key → off2 ≤ off) →
        batchGet data (some idx) key = .ok (valueAt data off) := by
  intro idx
  induction idx with
  | nil =>
    intro _ _ off hoff
    simp at hoff
  | cons h t ih =>
    intro hdec hsorted off hoff huk hmax
    have hdh := hdec h (by simp)
    rcases Option.isSome_iff_exists.mp hdh with ⟨⟨k0, uk0, v0⟩, hd0⟩
    have hukh : ukeyAt data h = uk0 := by simp [ukeyAt, hd0]
    have hsu : storageUkey data h = some uk0 :=
      storageUkey_of_decode data h k0 uk0 v0 hd0
    rcases List.pairwise_cons.mp hsorted with ⟨hrelh, hsortt⟩
    have hdect : ∀ o ∈ t, (batchDecodeAt data o).isSome = true :=
      fun o ho => hdec o (by simp [ho])
    by_cases hlt : memcmp uk0 key = .lt
    · have hpred : seekPred data key h = true := by
        simp [seekPred, hsu, hlt]
      have hgeq : batchGet data (some (h :: t)) key = batchGet data (some t) key := by
        simp [batchGet, List.dropWhile_cons, hpred]
      have hne : off ≠ h := by
        intro heq
        rw [heq, hukh] at huk
        rw [huk] at hlt
        rw [memcmp_irrefl key] at hlt
        exact Ordering.noConfusion hlt
      have hofft : off ∈ t := by
        rcases List.mem_cons.mp hoff with heq | ho
        · exact absurd heq hne
        · exact ho
      rw [hgeq]
      exact ih hdect hsortt off hofft huk
        (fun o2 ho2 h2 => hmax o2 (by simp [ho2]) h2)
    · have hpred : seekPred data key h = false := by
        simp [seekPred, hsu, hlt]
      have hoffh : off = h := by
        rcases List.mem_cons.mp hoff with heq | hofft
        · exact heq
        · exfalso
          rcases hrelh off hofft with hlt2 | ⟨heq2, holt⟩
          · rw [hukh, huk] at hlt2
            exact hlt hlt2
          · have : h ≤ off := hmax h (by simp) (by rw [heq2]; exact huk)
            omega
      rw [hoffh]
      rw [hoffh] at huk
      have hukk : uk0 = key := by rw [← hukh]; exact huk
      have hngt : memcmp key uk0 ≠ .gt := by
        rw [hukk]
        simp [memcmp_irrefl]
      have hdw : (h :: t).dropWhile (seekPred data key) = h :: t := by
        simp [List.dropWhile_cons, hpred]
      have hval : valueAt data h = v0 := by simp [valueAt, hd0]
      calc batchGet data (some (h :: t)) key
          = getAtSeek data key ((h :: t).dropWhile (seekPred data key)) := rfl
        _ = getAtSeek data key (h :: t) := by rw [hdw]
        _ = .ok v0 := by
            simp only [getAtSeek, hd0]
            rw [if_neg hngt]
        _ = .ok (valueAt data h) := by rw [hval]

theorem batchGet_notFound (data key : List Nat) :
    ∀ idx : List Nat,
      (∀ off ∈ idx, (batchDecodeAt data off).isSome = true) →
      batchGet data (some idx) key = .error .notFound →
      ∀ off ∈ idx, ukeyAt data off ≠ key := by
  intro idx
  induction idx with
  | nil =>
    intro _ _ off hoff
    simp at hoff
  | cons h t ih =>
    intro hdec hnf off hoff
    have hdh := hdec h (by simp)
    rcases Option.isSome_iff_exists.mp hdh with ⟨⟨k0, uk0, v0⟩, hd0⟩
    have hukh : ukeyAt data h = uk0 := by simp [ukeyAt, hd0]
    have hsu : storageUkey data h = some uk0 :=
      storageUkey_of_decode data h k0 uk0 v0 hd0
    have hdect : ∀ o ∈ t, (batchDecodeAt data o).isSome = true :=
      fun o ho => hdec o (by simp [ho])
    by_cases hlt : memcmp uk0 key = .lt
    · have hpred : seekPred data key h = true := by
        simp [seekPred, hsu, hlt]
      have hgeq : batchGet data (some (h :: t)) key = batchGet data (some t) key := by
        simp [batchGet, List.dropWhile_cons, hpred]
      rcases List.mem_cons.mp hoff with heq | hofft
      · subst heq
        rw [hukh]
        intro hcontra
        rw [hcontra] at hlt
        rw [memcmp_irrefl key] at hlt
        exact Ordering.noConfusion hlt
      · exact ih hdect (by rw [← hgeq]; exact hnf) off hofft
    · exfalso
      have hpred : seekPred data key h = false := by
        simp [seekPred, hsu, hlt]
      have hngt : memcmp key uk0 ≠ .gt := by
        intro hcontra
        exact hlt ((memcmp_gt_iff_lt key uk0).mp hcontra)
      have hdw : (h :: t).dropWhile (seekPred data key) = h :: t := by
        simp [List.dropWhile_cons, hpred]
      have hok : batchGet data (some (h :: t)) key = .ok v0 := by
        calc batchGet data (some (h :: t)) key
            = getAtSeek data key ((h :: t).dropWhile (seekPred data key)) := rfl
          _ = getAtSeek data key (h :: t) := by rw [hdw]
          _ = .ok v0 := by
              simp only [getAtSeek, hd0]
              rw [if_neg hngt]
      rw [hok] at hnf
      exact Except.noConfusion hnf

/-- Claim C10: for an indexed batch, `Get(key)` returns the stored value
of the most recently inserted entry with that user key regardless of its
kind — after a latest `Delete(key)` it returns a nil value with nil
error; `NotFound` arises only when no entry with the user key exists, and
`NotIndexed` exactly when the batch has no index. -/
theorem c10_batch_get (data key : List Nat) (idx : List Nat)
    (hdec : ∀ off ∈ idx, (batchDecodeAt data off).isSome = true)
    (hsorted : idx.Pairwise (idxRel data)) :
    (∀ off ∈ idx, ukeyAt data off = key →
      (∀ off2 ∈ idx, ukeyAt data off2 = key → off2 ≤ off) →
      batchGet data (some idx) key = .ok (valueAt data off)) ∧
    (batchGet data (some idx) key = .error .notFound →
      ∀ off ∈ idx, ukeyAt data off ≠ key) ∧
    (batchGet data none key = .error .notIndexed) ∧
    (∀ off ∈ idx, ukeyAt data off = key →
      (∀ off2 ∈ idx, ukeyAt data off2 = key → off2 ≤ off) →
      kindAt data off = kindDelete →
      batchGet data (some idx) key = .ok none) := by
  refine ⟨batchGet_found data key idx hdec hsorted,
    batchGet_notFound data key idx hdec, rfl, ?_⟩
  intro off hoff huk hmax hkind
  have h1 := batchGet_found data key idx hdec hsorted off hoff huk hmax
  rcases Option.isSome_iff_exists.mp (hdec off hoff) with ⟨⟨k0, uk0, v0⟩, hd0⟩
  have hk0 : k0 = kindDelete := by
    rw [kindAt, hd0] at hkind
    exact hkind
  subst hk0
  have hv0 : v0 = none := decodeAt_delete_value data off uk0 v0 hd0
  subst hv0
  have : valueAt data off = none := by simp [valueAt, hd0]
  rw [this] at h1
  exact h1

/-- Witness for `c10_batch_get` on the batch `Set("a","1"); Delete("a")`
with its two-entry index: `Get("a")` returns `.ok none` (nil value, nil
error) because the newest entry for `"a"` is the delete. -/
theorem c10_batch_get_witness :
    (∀ off ∈ c10idx, (batchDecodeAt c10data off).isSome = true) ∧
    c10idx.Pairwise (idxRel c10data) ∧
    17 ∈ c10idx ∧ ukeyAt c10data 17 = [97] ∧ kindAt c10data 17 = kindDelete ∧
    batchGet c10data (some c10idx) [97] = .ok none :=
  ⟨by decide, by decide, by decide, by decide, by decide,
    (c10_batch_get c10data [97] c10idx (by decide) (by decide)).2.2.2 17
      (by decide) (by decide) (by decide) (by decide)⟩

end Pebble
